import Mathlib

/-!
Verification of the polynomial string-hashing template: a shallow embedding of the
`Hashing` engine (prefix hashes, base powers, inverse base powers, substring-hash
queries under two prime moduli) and of the hash functors `custom_hash`, `pair_hash`
and `vector_hash`, together with proofs of the specified properties.

Machine integers are modelled as `Nat` with explicit reduction modulo the modulus
(for the engine, whose helpers keep every value in `[0, m)`) or modulo `2^64`
(for the `size_t`/`uint64_t` arithmetic of the hash functors).
-/

/-- Word size of the 64-bit machine integers (`uint64_t`/`size_t`) used by the
hash functors; arithmetic on them wraps modulo this value. -/
def wordSize : Nat := 2 ^ 64

/-- Character-to-number mapping used by the engine: `'a' -> 1, 'b' -> 2, ...`,
the translation of `str[j] - 'a' + 1`. -/
def charCode (c : Char) : Nat := c.toNat - Char.toNat 'a' + 1

/-- Modelled from the spec: `mulMod(a, b, m)` returns `(a*b) mod m` computed with a
wide-enough intermediate type; the helper is called by the source but its definition
is not under `src/`. -/
def mulMod (a b m : Nat) : Nat := a * b % m

/-- Modelled from the spec: `subMod(a, b, m)` returns `(a-b) mod m` normalized into
`[0, m)` even when `a < b`; the helper is called by the source but its definition is
not under `src/`. -/
def subMod (a b m : Nat) : Nat := (((a : Int) - (b : Int)) % (m : Int)).toNat

/-- Binary (fast) modular exponentiation, squaring on the halved exponent, with an
explicit bound on the number of halving steps; 64 levels cover every 64-bit
exponent, matching the loop `while (b) { ...; b >>= 1; }` on a 64-bit integer. -/
def powModFuel : Nat → Nat → Nat → Nat → Nat
  | 0, _, _, m => 1 % m
  | fuel + 1, a, b, m =>
    if b = 0 then 1 % m
    else
      let h := powModFuel fuel a (b / 2) m
      let hh := h * h % m
      if b % 2 = 1 then hh * (a % m) % m else hh

/-- Modelled from the spec: `mminvprime(a, m)` returns the multiplicative inverse of
`a` modulo the prime `m` via Fermat's little theorem, `a^(m-2) mod m` by fast
exponentiation; the helper is called by the source but its definition is not under
`src/`. -/
def mminvprime (a m : Nat) : Nat := powModFuel 64 a (m - 2) m

/-- Entry `j` of `powersOfBase` for one modulus: index 0 holds 1 and
`powersOfBase[i][j] = (base * powersOfBase[i][j-1]) % hashPrimes[i]`,
mirroring the forward constructor loop. -/
def powB (base p : Nat) : Nat → Nat
  | 0 => 1
  | j + 1 => base * powB base p j % p

/-- Inverse-power entries counted downward from index `n`: the argument `k` is the
distance `n - j`; distance 0 holds `top` (the Fermat inverse of `base^n`) and each
further step is `mulMod` with `base`, mirroring the downward constructor loop
`inversePowersOfBase[i][j] = mulMod(inversePowersOfBase[i][j+1], base, hashPrimes[i])`. -/
def invB (base p top : Nat) : Nat → Nat
  | 0 => top
  | k + 1 => mulMod (invB base p top k) base p

/-- Prefix-hash entry `j` for one modulus: the character code times the precomputed
base power, reduced modulo `p`, plus the previous entry (0 for `j = 0`), reduced
again, mirroring the two assignments of the constructor's prefix loop. -/
def prefH (s : List Char) (base p : Nat) : Nat → Nat
  | 0 => (charCode (s.getD 0 'a') * powB base p 0 % p + 0) % p
  | j + 1 => (charCode (s.getD (j + 1) 'a') * powB base p (j + 1) % p + prefH s base p j) % p

/-- Default modulus list of the engine: two large primes for double hashing. -/
def hashPrimesDefault : List Nat := [1000000009, 100000007]

/-- The `Hashing` engine record: the input string, its length, the base, the prime
moduli, and the three precomputed tables. -/
structure Hashing where
  str : List Char
  n : Nat
  base : Nat
  hashPrimes : List Nat
  hashValues : List (List Nat)
  powersOfBase : List (List Nat)
  inversePowersOfBase : List (List Nat)

/-- The constructor `Hashing(a)` with the default base 31 and default moduli: builds,
for each prime, the `n+1` base powers, the `n+1` inverse base powers (Fermat inverse
at index `n`, downward multiplication by the base below), and the `n` prefix hashes. -/
def mkHashing (a : List Char) : Hashing :=
  let n := a.length
  { str := a
    n := n
    base := 31
    hashPrimes := hashPrimesDefault
    hashValues := hashPrimesDefault.map fun p => (List.range n).map fun j => prefH a 31 p j
    powersOfBase := hashPrimesDefault.map fun p => (List.range (n + 1)).map fun j => powB 31 p j
    inversePowersOfBase := hashPrimesDefault.map fun p =>
      (List.range (n + 1)).map fun j => invB 31 p (mminvprime (powB 31 p n) p) (n - j) }

/-- Substring-hash query `[l, r]` returning one value per configured prime:
`mulMod(subMod(hashValues[i][r], l > 0 ? hashValues[i][l-1] : 0, p), inversePowersOfBase[i][l], p)`. -/
def Hashing.substringHashVec (h : Hashing) (l r : Nat) : List Nat :=
  (List.range h.hashPrimes.length).map fun i =>
    let p := h.hashPrimes.getD i 0
    let val1 := (h.hashValues.getD i []).getD r 0
    let val2 := if 0 < l then (h.hashValues.getD i []).getD (l - 1) 0 else 0
    mulMod (subMod val1 val2 p) ((h.inversePowersOfBase.getD i []).getD l 0) p

/-- Substring-hash query `[l, r]` returning the fixed pair for the first two primes,
each component computed by the same subtract-and-normalize formula as the vector
form but with the prime index written out. -/
def Hashing.substringHashPair (h : Hashing) (l r : Nat) : Nat × Nat :=
  let h1 :=
    let val1 := (h.hashValues.getD 0 []).getD r 0
    let val2 := if 0 < l then (h.hashValues.getD 0 []).getD (l - 1) 0 else 0
    mulMod (subMod val1 val2 (h.hashPrimes.getD 0 0)) ((h.inversePowersOfBase.getD 0 []).getD l 0)
      (h.hashPrimes.getD 0 0)
  let h2 :=
    let val1 := (h.hashValues.getD 1 []).getD r 0
    let val2 := if 0 < l then (h.hashValues.getD 1 []).getD (l - 1) 0 else 0
    mulMod (subMod val1 val2 (h.hashPrimes.getD 1 0)) ((h.inversePowersOfBase.getD 1 []).getD l 0)
      (h.hashPrimes.getD 1 0)
  (h1, h2)

/-- State-passing form of `substringHashVec`: the method body only reads fields and
local variables, performing no assignment to any member, so the post-state produced
by translating the body is the engine itself. -/
def Hashing.substringHashVecSt (h : Hashing) (l r : Nat) : Hashing × List Nat :=
  (h, h.substringHashVec l r)

/-- State-passing form of `substringHashPair`: as with the vector form, the body
performs no member assignment, so the post-state is the engine itself. -/
def Hashing.substringHashPairSt (h : Hashing) (l r : Nat) : Hashing × (Nat × Nat) :=
  (h, h.substringHashPair l r)

/-- The `splitmix64` mixing function of `custom_hash`, on naturals with explicit
reduction modulo `2^64` at each step whose `uint64_t` result can exceed 64 bits
(the xor-shift steps cannot overflow). -/
def splitmix64 (x : Nat) : Nat :=
  let x1 := (x + 0x9e3779b97f4a7c15) % wordSize
  let x2 := ((x1 ^^^ (x1 >>> 30)) * 0xbf58476d1ce4e5b9) % wordSize
  let x3 := ((x2 ^^^ (x2 >>> 27)) * 0x94d049bb133111eb) % wordSize
  x3 ^^^ (x3 >>> 31)

/-- The integer hash functor `custom_hash` with the process-lifetime seed
`FIXED_RANDOM` made an explicit parameter: `splitmix64(x + FIXED_RANDOM)` with the
64-bit wrap-around of the addition written out. -/
def custom_hash (seed x : Nat) : Nat := splitmix64 ((x + seed) % wordSize)

/-- The pair functor `pair_hash`: `custom_hash(first) XOR (custom_hash(second) << 1)`,
the shift truncated to 64 bits as on `size_t`. -/
def pair_hash (seed : Nat) (p : Nat × Nat) : Nat :=
  (custom_hash seed p.1) ^^^ ((custom_hash seed p.2) <<< 1 % wordSize)

/-- The accumulator loop of `vector_hash`: for each element, in order,
`h ^= custom_hash(it) + 0x9e3779b9 + (h << 6) + (h >> 2)`, every `size_t`
operation wrapping modulo `2^64`. -/
def vectorHashLoop (seed : Nat) : Nat → List Nat → Nat
  | h, [] => h
  | h, it :: rest => vectorHashLoop seed
      (h ^^^ ((custom_hash seed it + 0x9e3779b9 + ((h <<< 6) % wordSize) + (h >>> 2)) % wordSize))
      rest

/-- The sequence functor `vector_hash`: runs the accumulator loop over the vector
starting from `h = 0`. -/
def vector_hash (seed : Nat) (v : List Nat) : Nat := vectorHashLoop seed 0 v

/-- Polynomial value of a character list with ascending base-power weights, in Horner
form: the position-independent mathematical content of a substring hash. -/
def polyOf (base : Nat) : List Char → Nat
  | [] => 0
  | c :: cs => charCode c + base * polyOf base cs


/-! Basic bounds and `ZMod` cast identities for the modular helpers. -/

lemma mulMod_lt (a b m : Nat) (hm : 0 < m) : mulMod a b m < m :=
  Nat.mod_lt _ hm

lemma subMod_lt (a b m : Nat) (hm : 0 < m) : subMod a b m < m := by
  unfold subMod
  have h0 : (0 : Int) < (m : Int) := by exact_mod_cast hm
  have h1 : ((a : Int) - (b : Int)) % (m : Int) < (m : Int) :=
    Int.emod_lt_of_pos ((a : Int) - (b : Int)) h0
  have h2 : (0 : Int) ≤ ((a : Int) - (b : Int)) % (m : Int) :=
    Int.emod_nonneg ((a : Int) - (b : Int)) (by omega)
  omega

lemma powModFuel_lt (f a b m : Nat) (hm : 0 < m) : powModFuel f a b m < m := by
  induction f generalizing b with
  | zero => exact Nat.mod_lt _ hm
  | succ f ih =>
    unfold powModFuel
    by_cases hb : b = 0
    · simp [hb]; exact Nat.mod_lt _ hm
    · simp only [hb, if_false]
      by_cases hodd : b % 2 = 1 <;> simp [hodd] <;> exact Nat.mod_lt _ hm

lemma powModFuel_eq (a m : Nat) (hm : 0 < m) :
    ∀ f b, b < 2 ^ f → powModFuel f a b m = a ^ b % m := by
  intro f
  induction f with
  | zero =>
    intro b hb
    interval_cases b
    simp [powModFuel]
  | succ f ih =>
    intro b hb
    by_cases hb0 : b = 0
    · subst hb0; simp [powModFuel]
    · have hhalf : b / 2 < 2 ^ f := by
        have : b < 2 ^ f * 2 := by
          have := hb; rw [pow_succ] at this; omega
        omega
      have hrec := ih (b / 2) hhalf
      unfold powModFuel
      simp only [hb0, if_false]
      rw [hrec]
      have hsq : a ^ (b / 2) % m * (a ^ (b / 2) % m) % m = a ^ (b / 2 + b / 2) % m := by
        rw [pow_add, ← Nat.mul_mod]
      by_cases hodd : b % 2 = 1
      · simp only [hodd, if_true]
        rw [hsq]
        have : a ^ (b / 2 + b / 2) % m * (a % m) % m = a ^ (b / 2 + b / 2) * a % m := by
          rw [← Nat.mul_mod]
        rw [this, ← pow_succ]
        congr 2
        omega
      · simp only [hodd, if_false]
        rw [hsq]
        congr 2
        omega

lemma mminvprime_lt (a m : Nat) (hm : 0 < m) : mminvprime a m < m :=
  powModFuel_lt _ _ _ _ hm

lemma mminvprime_eq (a m : Nat) (hm : 0 < m) (h64 : m - 2 < 2 ^ 64) :
    mminvprime a m = a ^ (m - 2) % m :=
  powModFuel_eq a m hm 64 (m - 2) h64

lemma mulMod_cast (a b m : Nat) : ((mulMod a b m : Nat) : ZMod m) = (a : ZMod m) * b := by
  unfold mulMod
  rw [ZMod.natCast_mod, Nat.cast_mul]

lemma subMod_cast (a b m : Nat) (hm : 0 < m) :
    ((subMod a b m : Nat) : ZMod m) = (a : ZMod m) - b := by
  unfold subMod
  have hnn := Int.emod_nonneg ((a : Int) - (b : Int)) (by omega : (m : Int) ≠ 0)
  have h1 : (((((a : Int) - b) % (m : Int)).toNat : Nat) : ZMod m)
      = ((((a : Int) - b) % (m : Int) : Int) : ZMod m) := by
    rw [← Int.cast_natCast, Int.toNat_of_nonneg hnn]
  rw [h1]
  have h2 : ((((a : Int) - b) % (m : Int) : Int) : ZMod m) = (((a : Int) - b : Int) : ZMod m) := by
    rw [Int.emod_def ((a : Int) - b) (m : Int)]
    push_cast
    ring_nf
    simp only [ZMod.natCast_self, zero_mul, mul_zero, sub_zero, add_zero, zero_add]
    ring
  rw [h2]
  push_cast
  ring

/-! Bounds and `ZMod` casts for the precomputed tables. -/

lemma powB_lt (base p : Nat) (hp : 2 ≤ p) : ∀ j, powB base p j < p := by
  intro j
  cases j with
  | zero => simpa [powB] using hp
  | succ j => exact Nat.mod_lt _ (by omega)

lemma invB_lt (base p top : Nat) (hp : 0 < p) (htop : top < p) : ∀ k, invB base p top k < p := by
  intro k
  cases k with
  | zero => simpa [invB] using htop
  | succ k => exact Nat.mod_lt _ hp

lemma prefH_lt (s : List Char) (base p : Nat) (hp : 0 < p) : ∀ j, prefH s base p j < p := by
  intro j
  cases j with
  | zero => exact Nat.mod_lt _ hp
  | succ j => exact Nat.mod_lt _ hp

lemma powB_cast (base p : Nat) : ∀ j, ((powB base p j : Nat) : ZMod p) = (base : ZMod p) ^ j := by
  intro j
  induction j with
  | zero => simp [powB]
  | succ j ih =>
    show (((base * powB base p j % p : Nat)) : ZMod p) = (base : ZMod p) ^ (j + 1)
    rw [ZMod.natCast_mod, Nat.cast_mul, ih, pow_succ]
    ring

lemma powB_eq_pow_mod (base p : Nat) (hp : 2 ≤ p) : ∀ j, powB base p j = base ^ j % p := by
  intro j
  induction j with
  | zero => simp [powB, Nat.mod_eq_of_lt (show 1 < p by omega)]
  | succ j ih =>
    show base * powB base p j % p = base ^ (j + 1) % p
    rw [ih]
    conv_lhs => rw [Nat.mul_mod, Nat.mod_mod_of_dvd _ dvd_rfl, ← Nat.mul_mod]
    rw [pow_succ, mul_comm base (base ^ j)]

lemma invB_cast (base p top : Nat) :
    ∀ k, ((invB base p top k : Nat) : ZMod p) = (top : ZMod p) * (base : ZMod p) ^ k := by
  intro k
  induction k with
  | zero => simp [invB]
  | succ k ih =>
    show ((mulMod (invB base p top k) base p : Nat) : ZMod p) = _
    rw [mulMod_cast, ih, pow_succ]
    ring

/-! Fermat inverse, instantiated via `ZMod`. -/

lemma mminvprime_mul_cast (p a : Nat) [hp : Fact p.Prime] (h64 : p - 2 < 2 ^ 64)
    (ha : ¬ p ∣ a) : ((mminvprime a p : Nat) : ZMod p) * (a : ZMod p) = 1 := by
  have hp2 : 2 ≤ p := hp.out.two_le
  rw [mminvprime_eq a p (by omega) h64, ZMod.natCast_mod, Nat.cast_pow]
  have hane : (a : ZMod p) ≠ 0 := by
    rw [Ne, ZMod.natCast_zmod_eq_zero_iff_dvd]
    exact ha
  have hfer : (a : ZMod p) ^ (p - 1) = 1 := ZMod.pow_card_sub_one_eq_one hane
  calc (a : ZMod p) ^ (p - 2) * (a : ZMod p)
      = (a : ZMod p) ^ (p - 2 + 1) := by rw [pow_succ]
    _ = (a : ZMod p) ^ (p - 1) := by congr 1; omega
    _ = 1 := hfer

/-! The mathematical content of a substring hash: `polyOf` of the character slice. -/

lemma polyOf_append (base : Nat) (xs ys : List Char) :
    polyOf base (xs ++ ys) = polyOf base xs + base ^ xs.length * polyOf base ys := by
  induction xs with
  | nil => simp [polyOf]
  | cons c cs ih =>
    show polyOf base (c :: (cs ++ ys)) = _
    simp only [polyOf, List.length_cons]
    rw [ih]
    ring

lemma prefH_cast (s : List Char) (base p : Nat) :
    ∀ j, j < s.length →
      ((prefH s base p j : Nat) : ZMod p) = ((polyOf base (s.take (j + 1)) : Nat) : ZMod p) := by
  intro j
  induction j with
  | zero =>
    intro hj
    show (((charCode (s.getD 0 'a') * powB base p 0 % p + 0) % p : Nat) : ZMod p) = _
    rw [ZMod.natCast_mod, Nat.add_zero, ZMod.natCast_mod, Nat.cast_mul, powB_cast]
    have htake : s.take 1 = [s.getD 0 'a'] := by
      rw [List.take_succ, List.take_zero, List.getD_eq_getElem s 'a' hj,
        List.getElem?_eq_getElem hj]
      rfl
    rw [htake]
    simp [polyOf]
  | succ j ih =>
    intro hj
    have hj' : j < s.length := by omega
    show (((charCode (s.getD (j + 1) 'a') * powB base p (j + 1) % p + prefH s base p j) % p
      : Nat) : ZMod p) = _
    rw [ZMod.natCast_mod, Nat.cast_add, ZMod.natCast_mod, Nat.cast_mul, powB_cast, ih hj']
    have htake : s.take (j + 2) = s.take (j + 1) ++ [s.getD (j + 1) 'a'] := by
      rw [List.take_succ, List.getD_eq_getElem s 'a' hj, List.getElem?_eq_getElem hj]
      rfl
    rw [htake, polyOf_append]
    have hlen : (s.take (j + 1)).length = j + 1 := by
      rw [List.length_take]
      omega
    rw [hlen]
    push_cast
    simp [polyOf]
    ring

/-! Reading the stored tables of `mkHashing`. -/

lemma getD_range_map (f : Nat → Nat) (n j : Nat) (hj : j < n) :
    ((List.range n).map f).getD j 0 = f j := by
  rw [List.getD_eq_getElem _ 0 (by simpa using hj)]
  simp

/-- Component value of a substring-hash query for one modulus, read off the
recurrences that fill the stored tables. -/
def compVal (s : List Char) (p l r : Nat) : Nat :=
  mulMod (subMod (prefH s 31 p r) (if 0 < l then prefH s 31 p (l - 1) else 0) p)
    (invB 31 p (mminvprime (powB 31 p s.length) p) (s.length - l)) p

lemma substringHashVec_eq (s : List Char) (l r : Nat) (hl : l ≤ r) (hr : r < s.length) :
    (mkHashing s).substringHashVec l r
      = [compVal s 1000000009 l r, compVal s 100000007 l r] := by
  have hrange : List.range 2 = [0, 1] := rfl
  simp only [Hashing.substringHashVec, mkHashing, hashPrimesDefault, List.map_cons,
    List.map_nil, List.length_cons, List.length_nil]
  rw [hrange]
  simp only [List.map_cons, List.map_nil, List.getD_cons_zero, List.getD_cons_succ]
  rw [getD_range_map _ _ _ hr, getD_range_map _ _ _ hr,
    getD_range_map _ _ _ (show l < s.length + 1 by omega),
    getD_range_map _ _ _ (show l < s.length + 1 by omega)]
  by_cases hl0 : 0 < l
  · rw [if_pos hl0, if_pos hl0,
      getD_range_map _ _ _ (show l - 1 < s.length by omega),
      getD_range_map _ _ _ (show l - 1 < s.length by omega)]
    simp only [compVal, if_pos hl0]
  · rw [if_neg hl0, if_neg hl0]
    simp only [compVal, if_neg hl0]

lemma substringHashPair_eq (s : List Char) (l r : Nat) (hl : l ≤ r) (hr : r < s.length) :
    (mkHashing s).substringHashPair l r = (compVal s 1000000009 l r, compVal s 100000007 l r) := by
  simp only [Hashing.substringHashPair, mkHashing, hashPrimesDefault, List.map_cons,
    List.map_nil, List.getD_cons_zero, List.getD_cons_succ]
  rw [getD_range_map _ _ _ hr, getD_range_map _ _ _ hr,
    getD_range_map _ _ _ (show l < s.length + 1 by omega),
    getD_range_map _ _ _ (show l < s.length + 1 by omega)]
  by_cases hl0 : 0 < l
  · rw [if_pos hl0, if_pos hl0,
      getD_range_map _ _ _ (show l - 1 < s.length by omega),
      getD_range_map _ _ _ (show l - 1 < s.length by omega)]
    simp only [compVal, if_pos hl0]
  · rw [if_neg hl0, if_neg hl0]
    simp only [compVal, if_neg hl0]

lemma compVal_lt (s : List Char) (p l r : Nat) (hp : 0 < p) : compVal s p l r < p :=
  Nat.mod_lt _ hp

/-! The substring hash of `[l, r]` is the polynomial value of the character slice. -/

lemma hashNormalize {R : Type _} [CommRing R] (A S T u v : R) (h : T * (v * u) = 1) :
    (A + u * S - A) * (T * v) = S := by
  calc (A + u * S - A) * (T * v) = S * (T * (v * u)) := by ring
    _ = S := by rw [h, mul_one]

lemma compVal_cast (p : Nat) [hp : Fact p.Prime] (h31 : ¬ p ∣ 31) (h64 : p - 2 < 2 ^ 64)
    (s : List Char) (l r : Nat) (hl : l ≤ r) (hr : r < s.length) :
    ((compVal s p l r : Nat) : ZMod p)
      = ((polyOf 31 ((s.drop l).take (r - l + 1)) : Nat) : ZMod p) := by
  have hp2 : 2 ≤ p := hp.out.two_le
  have hpow_ne : ¬ p ∣ powB 31 p s.length := by
    rw [powB_eq_pow_mod 31 p hp2]
    rw [Nat.dvd_mod_iff dvd_rfl]
    intro hdvd
    exact h31 (hp.out.dvd_of_dvd_pow hdvd)
  have htop : ((mminvprime (powB 31 p s.length) p : Nat) : ZMod p)
      * ((31 : Nat) : ZMod p) ^ s.length = 1 := by
    have h := mminvprime_mul_cast p (powB 31 p s.length) h64 hpow_ne
    rw [powB_cast] at h
    exact h
  unfold compVal
  rw [mulMod_cast, subMod_cast _ _ _ (by omega), invB_cast, prefH_cast s 31 p r hr]
  by_cases hl0 : 0 < l
  · rw [if_pos hl0, prefH_cast s 31 p (l - 1) (by omega)]
    have hl1 : l - 1 + 1 = l := by omega
    rw [hl1]
    have hsplit : s.take (r + 1) = s.take l ++ (s.drop l).take (r - l + 1) := by
      rw [← List.take_add]
      congr 1
      omega
    rw [hsplit, polyOf_append]
    have hlen : (s.take l).length = l := by
      rw [List.length_take]
      omega
    rw [hlen, Nat.cast_add, Nat.cast_mul, Nat.cast_pow]
    apply hashNormalize
    rw [← pow_add, show s.length - l + l = s.length from by omega]
    exact htop
  · rw [if_neg hl0]
    have hl' : l = 0 := by omega
    subst hl'
    simp only [Nat.sub_zero, List.drop_zero, Nat.cast_zero, sub_zero]
    rw [htop, mul_one]

/-! Instantiation at the two default primes: their primality is certified by the
Lucas primality test, with the modular exponentiations evaluated through the
binary `powModFuel` and the prime factorizations of `p - 1` spelled out. -/

lemma natCast_inj_of_lt (p a b : Nat) (ha : a < p) (hb : b < p)
    (h : (a : ZMod p) = b) : a = b := by
  have := congrArg ZMod.val h
  rwa [ZMod.val_cast_of_lt ha, ZMod.val_cast_of_lt hb] at this

lemma zmod_pow_from_powModFuel (p a N : Nat) (hp : 2 ≤ p) (hN : N < 2 ^ 64) :
    ((a : Nat) : ZMod p) ^ N = ((powModFuel 64 a N p : Nat) : ZMod p) := by
  rw [powModFuel_eq a p (by omega) 64 N hN, ZMod.natCast_mod, Nat.cast_pow]

lemma zmod_pow_eq_one (p a N : Nat) (hp : 2 ≤ p) (hN : N < 2 ^ 64)
    (h : powModFuel 64 a N p = 1) : ((a : Nat) : ZMod p) ^ N = 1 := by
  rw [zmod_pow_from_powModFuel p a N hp hN, h, Nat.cast_one]

lemma zmod_pow_ne_one (p a N v : Nat) (hp : 2 ≤ p) (hN : N < 2 ^ 64)
    (h : powModFuel 64 a N p = v) (hv1 : v ≠ 1) (hvp : v < p) :
    ((a : Nat) : ZMod p) ^ N ≠ 1 := by
  rw [zmod_pow_from_powModFuel p a N hp hN, h]
  intro hcon
  apply hv1
  apply natCast_inj_of_lt p v 1 hvp (by omega)
  rw [hcon, Nat.cast_one]

lemma prime_eq_of_dvd_pp {q r : Nat} (hq : q.Prime) (hr : r.Prime) {e : Nat}
    (h : q ∣ r ^ e) : q = r :=
  (Nat.prime_dvd_prime_iff_eq hq hr).mp (hq.dvd_of_dvd_pow h)

lemma prime_1000000009 : Nat.Prime 1000000009 := by
  have h2 : Nat.Prime 2 := by norm_num
  have h3 : Nat.Prime 3 := by norm_num
  have h7 : Nat.Prime 7 := by norm_num
  have h109 : Nat.Prime 109 := by norm_num
  have h167 : Nat.Prime 167 := by norm_num
  apply lucas_primality 1000000009 ((13 : Nat) : ZMod 1000000009)
  · exact zmod_pow_eq_one 1000000009 13 (1000000009 - 1) (by norm_num) (by norm_num) (by decide)
  · intro q hq hdvd
    have heq : (1000000009 : Nat) - 1 = 2 ^ 3 * (3 ^ 2 * (7 * (109 ^ 2 * 167))) := by norm_num
    rw [heq] at hdvd
    have hx : q = 2 ∨ q = 3 ∨ q = 7 ∨ q = 109 ∨ q = 167 := by
      rcases (Nat.Prime.dvd_mul hq).mp hdvd with h | h
      · exact Or.inl (prime_eq_of_dvd_pp hq h2 h)
      rcases (Nat.Prime.dvd_mul hq).mp h with h | h
      · exact Or.inr (Or.inl (prime_eq_of_dvd_pp hq h3 h))
      rcases (Nat.Prime.dvd_mul hq).mp h with h | h
      · exact Or.inr (Or.inr (Or.inl ((Nat.prime_dvd_prime_iff_eq hq h7).mp h)))
      rcases (Nat.Prime.dvd_mul hq).mp h with h | h
      · exact Or.inr (Or.inr (Or.inr (Or.inl (prime_eq_of_dvd_pp hq h109 h))))
      · exact Or.inr (Or.inr (Or.inr (Or.inr ((Nat.prime_dvd_prime_iff_eq hq h167).mp h))))
    rcases hx with rfl | rfl | rfl | rfl | rfl
    · exact zmod_pow_ne_one 1000000009 13 ((1000000009 - 1) / 2) 1000000008
        (by norm_num) (by norm_num) (by decide) (by norm_num) (by norm_num)
    · exact zmod_pow_ne_one 1000000009 13 ((1000000009 - 1) / 3) 115381398
        (by norm_num) (by norm_num) (by decide) (by norm_num) (by norm_num)
    · exact zmod_pow_ne_one 1000000009 13 ((1000000009 - 1) / 7) 959167179
        (by norm_num) (by norm_num) (by decide) (by norm_num) (by norm_num)
    · exact zmod_pow_ne_one 1000000009 13 ((1000000009 - 1) / 109) 858889448
        (by norm_num) (by norm_num) (by decide) (by norm_num) (by norm_num)
    · exact zmod_pow_ne_one 1000000009 13 ((1000000009 - 1) / 167) 365539227
        (by norm_num) (by norm_num) (by decide) (by norm_num) (by norm_num)

lemma prime_100000007 : Nat.Prime 100000007 := by
  have h2 : Nat.Prime 2 := by norm_num
  have h491 : Nat.Prime 491 := by norm_num
  have h101833 : Nat.Prime 101833 := by norm_num
  apply lucas_primality 100000007 ((5 : Nat) : ZMod 100000007)
  · exact zmod_pow_eq_one 100000007 5 (100000007 - 1) (by norm_num) (by norm_num) (by decide)
  · intro q hq hdvd
    have heq : (100000007 : Nat) - 1 = 2 * (491 * 101833) := by norm_num
    rw [heq] at hdvd
    have hx : q = 2 ∨ q = 491 ∨ q = 101833 := by
      rcases (Nat.Prime.dvd_mul hq).mp hdvd with h | h
      · exact Or.inl ((Nat.prime_dvd_prime_iff_eq hq h2).mp h)
      rcases (Nat.Prime.dvd_mul hq).mp h with h | h
      · exact Or.inr (Or.inl ((Nat.prime_dvd_prime_iff_eq hq h491).mp h))
      · exact Or.inr (Or.inr ((Nat.prime_dvd_prime_iff_eq hq h101833).mp h))
    rcases hx with rfl | rfl | rfl
    · exact zmod_pow_ne_one 100000007 5 ((100000007 - 1) / 2) 100000006
        (by norm_num) (by norm_num) (by decide) (by norm_num) (by norm_num)
    · exact zmod_pow_ne_one 100000007 5 ((100000007 - 1) / 491) 11332872
        (by norm_num) (by norm_num) (by decide) (by norm_num) (by norm_num)
    · exact zmod_pow_ne_one 100000007 5 ((100000007 - 1) / 101833) 75101704
        (by norm_num) (by norm_num) (by decide) (by norm_num) (by norm_num)

instance fact_prime_1000000009 : Fact (Nat.Prime 1000000009) := ⟨prime_1000000009⟩

instance fact_prime_100000007 : Fact (Nat.Prime 100000007) := ⟨prime_100000007⟩

lemma p_not_dvd_31 {p : Nat} (h : 31 < p) : ¬ p ∣ 31 := by
  intro hd
  have := Nat.le_of_dvd (by norm_num) hd
  omega

lemma compVal_congr (p : Nat) [hp : Fact p.Prime] (h31 : ¬ p ∣ 31) (h64 : p - 2 < 2 ^ 64)
    (s : List Char) (l1 r1 l2 r2 : Nat) (h1 : l1 ≤ r1) (hr1 : r1 < s.length)
    (h2 : l2 ≤ r2) (hr2 : r2 < s.length)
    (heq : (s.drop l1).take (r1 - l1 + 1) = (s.drop l2).take (r2 - l2 + 1)) :
    compVal s p l1 r1 = compVal s p l2 r2 := by
  have hp0 : 0 < p := hp.out.pos
  apply natCast_inj_of_lt p _ _ (compVal_lt s p l1 r1 hp0) (compVal_lt s p l2 r2 hp0)
  rw [compVal_cast p h31 h64 s l1 r1 h1 hr1, compVal_cast p h31 h64 s l2 r2 h2 hr2, heq]

/-- The demo text of the source file, as a character list. -/
def abacaba : List Char := ['a', 'b', 'a', 'c', 'a', 'b', 'a']

/-- C1: for a `Hashing` engine built with the default base 31 and default moduli from
any string of lowercase letters, index pairs whose substrings are equal character for
character (inclusive bounds) get equal `substringHashVec` results componentwise for
every configured modulus. -/
theorem c1_equal_substrings_equal_hash (s : List Char) (l1 r1 l2 r2 : Nat)
    (hlow : ∀ c ∈ s, 'a' ≤ c ∧ c ≤ 'z')
    (h1 : l1 ≤ r1) (hr1 : r1 < s.length) (h2 : l2 ≤ r2) (hr2 : r2 < s.length)
    (heq : (s.drop l1).take (r1 - l1 + 1) = (s.drop l2).take (r2 - l2 + 1)) :
    (mkHashing s).substringHashVec l1 r1 = (mkHashing s).substringHashVec l2 r2 := by
  rw [substringHashVec_eq s l1 r1 h1 hr1, substringHashVec_eq s l2 r2 h2 hr2,
    compVal_congr 1000000009 (p_not_dvd_31 (by norm_num)) (by norm_num)
      s l1 r1 l2 r2 h1 hr1 h2 hr2 heq,
    compVal_congr 100000007 (p_not_dvd_31 (by norm_num)) (by norm_num)
      s l1 r1 l2 r2 h1 hr1 h2 hr2 heq]

/-- Witness for C1: on the text `abacaba`, the equal substrings at `[0,2]` and `[4,6]`
(both spelling `aba`) hash identically, in vector form by the theorem and in pair
form by direct evaluation. -/
theorem c1_witness :
    (mkHashing abacaba).substringHashVec 0 2 = (mkHashing abacaba).substringHashVec 4 6
      ∧ (mkHashing abacaba).substringHashPair 0 2 = (mkHashing abacaba).substringHashPair 4 6 :=
  ⟨c1_equal_substrings_equal_hash abacaba 0 2 4 6 (by decide) (by decide) (by decide)
      (by decide) (by decide) (by decide),
    by decide⟩

/-- C2: for every engine with the default configuration and every valid query,
`substringHashPair` returns exactly the pair of the first two components of
`substringHashVec`. -/
theorem c2_pair_refines_vec (s : List Char) (l r : Nat) (hl : l ≤ r) (hr : r < s.length) :
    (mkHashing s).substringHashPair l r
      = (((mkHashing s).substringHashVec l r).getD 0 0,
         ((mkHashing s).substringHashVec l r).getD 1 0) := by
  rw [substringHashPair_eq s l r hl hr, substringHashVec_eq s l r hl hr]
  rfl

/-- Witness for C2 at the text `abacaba` with the query `[0, 2]`. -/
theorem c2_witness :
    (mkHashing abacaba).substringHashPair 0 2
      = (((mkHashing abacaba).substringHashVec 0 2).getD 0 0,
         ((mkHashing abacaba).substringHashVec 0 2).getD 1 0) :=
  c2_pair_refines_vec abacaba 0 2 (by decide) (by decide)

/-! The inverse-power table really inverts the power table, at every index. -/

lemma top_mul_pow (p : Nat) [hp : Fact p.Prime] (h31 : ¬ p ∣ 31) (h64 : p - 2 < 2 ^ 64)
    (n : Nat) :
    ((mminvprime (powB 31 p n) p : Nat) : ZMod p) * ((31 : Nat) : ZMod p) ^ n = 1 := by
  have hp2 : 2 ≤ p := hp.out.two_le
  have hpow_ne : ¬ p ∣ powB 31 p n := by
    rw [powB_eq_pow_mod 31 p hp2, Nat.dvd_mod_iff dvd_rfl]
    intro hdvd
    exact h31 (hp.out.dvd_of_dvd_pow hdvd)
  have h := mminvprime_mul_cast p (powB 31 p n) h64 hpow_ne
  rwa [powB_cast] at h

lemma inv_pow_entry (p : Nat) [hp : Fact p.Prime] (h31 : ¬ p ∣ 31) (h64 : p - 2 < 2 ^ 64)
    (n j : Nat) (hj : j ≤ n) :
    invB 31 p (mminvprime (powB 31 p n) p) (n - j) * powB 31 p j % p = 1 := by
  have hp2 : 2 ≤ p := hp.out.two_le
  apply natCast_inj_of_lt p _ 1 (Nat.mod_lt _ (by omega)) (by omega)
  rw [Nat.cast_one, ZMod.natCast_mod, Nat.cast_mul, invB_cast, powB_cast, mul_assoc,
    ← pow_add, show n - j + j = n from by omega]
  exact top_mul_pow p h31 h64 n

/-- C3: after construction with the default base and moduli, every entry of
`powersOfBase[i]` is the corresponding power of 31 reduced by that prime, and
multiplying by the matching `inversePowersOfBase[i]` entry gives 1 modulo that
prime, even though only the index-`n` inverse comes from Fermat exponentiation. -/
theorem c3_power_table_correct (s : List Char) (i j : Nat) (hi : i < 2) (hj : j ≤ s.length) :
    ((mkHashing s).powersOfBase.getD i []).getD j 0
        = 31 ^ j % (mkHashing s).hashPrimes.getD i 0
      ∧ (((mkHashing s).inversePowersOfBase.getD i []).getD j 0
            * ((mkHashing s).powersOfBase.getD i []).getD j 0)
          % (mkHashing s).hashPrimes.getD i 0 = 1 := by
  interval_cases i
  · constructor
    · show ((List.range (s.length + 1)).map fun k => powB 31 1000000009 k).getD j 0
        = 31 ^ j % 1000000009
      rw [getD_range_map _ _ _ (by omega)]
      exact powB_eq_pow_mod 31 1000000009 (by norm_num) j
    · show (((List.range (s.length + 1)).map fun k =>
            invB 31 1000000009 (mminvprime (powB 31 1000000009 s.length) 1000000009)
              (s.length - k)).getD j 0
          * ((List.range (s.length + 1)).map fun k => powB 31 1000000009 k).getD j 0)
          % 1000000009 = 1
      rw [getD_range_map _ _ _ (by omega), getD_range_map _ _ _ (by omega)]
      exact inv_pow_entry 1000000009 (p_not_dvd_31 (by norm_num)) (by norm_num) s.length j hj
  · constructor
    · show ((List.range (s.length + 1)).map fun k => powB 31 100000007 k).getD j 0
        = 31 ^ j % 100000007
      rw [getD_range_map _ _ _ (by omega)]
      exact powB_eq_pow_mod 31 100000007 (by norm_num) j
    · show (((List.range (s.length + 1)).map fun k =>
            invB 31 100000007 (mminvprime (powB 31 100000007 s.length) 100000007)
              (s.length - k)).getD j 0
          * ((List.range (s.length + 1)).map fun k => powB 31 100000007 k).getD j 0)
          % 100000007 = 1
      rw [getD_range_map _ _ _ (by omega), getD_range_map _ _ _ (by omega)]
      exact inv_pow_entry 100000007 (p_not_dvd_31 (by norm_num)) (by norm_num) s.length j hj

/-- Witness for C3 at the text `abacaba`, prime index 0 and exponent 3. -/
theorem c3_witness :
    ((mkHashing abacaba).powersOfBase.getD 0 []).getD 3 0
        = 31 ^ 3 % (mkHashing abacaba).hashPrimes.getD 0 0
      ∧ (((mkHashing abacaba).inversePowersOfBase.getD 0 []).getD 3 0
            * ((mkHashing abacaba).powersOfBase.getD 0 []).getD 3 0)
          % (mkHashing abacaba).hashPrimes.getD 0 0 = 1 :=
  c3_power_table_correct abacaba 0 3 (by decide) (by decide)

/-- C4: on the text `abacaba`, the unequal substrings `abac` at `[0,3]` and `caba`
at `[3,6]` get different hash tuples, in pair form and in vector form. -/
theorem c4_unequal_substrings_differ :
    (mkHashing abacaba).substringHashPair 0 3 ≠ (mkHashing abacaba).substringHashPair 3 6
      ∧ (mkHashing abacaba).substringHashVec 0 3 ≠ (mkHashing abacaba).substringHashVec 3 6 := by
  constructor <;> decide

lemma charCode_le_26 {c : Char} (hc : 'a' ≤ c ∧ c ≤ 'z') : charCode c ≤ 26 := by
  have h2 : c.toNat ≤ 122 := hc.2
  have ha : Char.toNat 'a' = 97 := rfl
  unfold charCode
  omega

lemma slice_single (s : List Char) (i : Nat) (hi : i < s.length) :
    (s.drop i).take (i - i + 1) = [s.getD i 'a'] := by
  rw [show i - i + 1 = 1 from by omega, List.take_succ, List.take_zero,
    List.getElem?_drop, Nat.add_zero, List.getElem?_eq_getElem hi,
    List.getD_eq_getElem s 'a' hi]
  rfl

lemma compVal_single (p : Nat) [hp : Fact p.Prime] (h31lt : 31 < p) (h64 : p - 2 < 2 ^ 64)
    (s : List Char) (i : Nat) (hlow : ∀ c ∈ s, 'a' ≤ c ∧ c ≤ 'z') (hi : i < s.length) :
    compVal s p i i = charCode (s.getD i 'a') := by
  have hp2 : 2 ≤ p := hp.out.two_le
  have h31 : ¬ p ∣ 31 := p_not_dvd_31 h31lt
  have hcode : charCode (s.getD i 'a') ≤ 26 := by
    apply charCode_le_26
    apply hlow
    rw [List.getD_eq_getElem s 'a' hi]
    exact List.getElem_mem hi
  apply natCast_inj_of_lt p _ _ (compVal_lt s p i i (by omega)) (by omega)
  rw [compVal_cast p h31 h64 s i i le_rfl hi, slice_single s i hi]
  simp [polyOf]

/-- C5: for every engine built from a lowercase string, a single-character query
`substringHashVec(i,i)` returns exactly the mapped character code of `text[i]`
(`'a'` gives 1, `'b'` gives 2, ...) under every configured modulus, with no residual
base-power factor. -/
theorem c5_single_char_hash (s : List Char) (i : Nat)
    (hlow : ∀ c ∈ s, 'a' ≤ c ∧ c ≤ 'z') (hi : i < s.length) :
    (mkHashing s).substringHashVec i i
      = [charCode (s.getD i 'a'), charCode (s.getD i 'a')] := by
  rw [substringHashVec_eq s i i le_rfl hi,
    compVal_single 1000000009 (by norm_num) (by norm_num) s i hlow hi,
    compVal_single 100000007 (by norm_num) (by norm_num) s i hlow hi]

/-- Witness for C5 at the text `abacaba` and index 3 (the character `c`, code 3). -/
theorem c5_witness :
    (mkHashing abacaba).substringHashVec 3 3
      = [charCode (abacaba.getD 3 'a'), charCode (abacaba.getD 3 'a')] :=
  c5_single_char_hash abacaba 3 (by decide) (by decide)

/-! Every stored entry and every query result stays inside `[0, p)`. -/

lemma mem_range_map_lt {f : Nat → Nat} {p : Nat} (h : ∀ j, f j < p) (m : Nat) :
    ∀ x ∈ (List.range m).map f, x < p := by
  intro x hx
  rcases List.mem_map.mp hx with ⟨j, _, rfl⟩
  exact h j

/-- C6: after construction, every stored entry of `powersOfBase[i]`,
`inversePowersOfBase[i]` and `hashValues[i]` lies in `[0, p_i)` for its modulus, and
both components of a valid `substringHashVec` or `substringHashPair` query do too. -/
theorem c6_values_in_range (s : List Char) (i l r : Nat) (hi : i < 2) (hl : l ≤ r)
    (hr : r < s.length) :
    (∀ x ∈ (mkHashing s).powersOfBase.getD i [], x < (mkHashing s).hashPrimes.getD i 0)
      ∧ (∀ x ∈ (mkHashing s).inversePowersOfBase.getD i [],
          x < (mkHashing s).hashPrimes.getD i 0)
      ∧ (∀ x ∈ (mkHashing s).hashValues.getD i [], x < (mkHashing s).hashPrimes.getD i 0)
      ∧ ((mkHashing s).substringHashVec l r).getD i 0 < (mkHashing s).hashPrimes.getD i 0
      ∧ ((mkHashing s).substringHashPair l r).1 < (mkHashing s).hashPrimes.getD 0 0
      ∧ ((mkHashing s).substringHashPair l r).2 < (mkHashing s).hashPrimes.getD 1 0 := by
  have hvec := substringHashVec_eq s l r hl hr
  have hpair := substringHashPair_eq s l r hl hr
  interval_cases i
  · refine ⟨?_, ?_, ?_, ?_, ?_, ?_⟩
    · exact mem_range_map_lt (powB_lt 31 1000000009 (by norm_num)) (s.length + 1)
    · exact mem_range_map_lt
        (fun j => invB_lt 31 1000000009 (mminvprime (powB 31 1000000009 s.length) 1000000009)
          (by norm_num) (mminvprime_lt _ 1000000009 (by norm_num)) (s.length - j))
        (s.length + 1)
    · exact mem_range_map_lt (prefH_lt s 31 1000000009 (by norm_num)) s.length
    · rw [hvec]
      exact compVal_lt s 1000000009 l r (by norm_num)
    · rw [hpair]
      exact compVal_lt s 1000000009 l r (by norm_num)
    · rw [hpair]
      exact compVal_lt s 100000007 l r (by norm_num)
  · refine ⟨?_, ?_, ?_, ?_, ?_, ?_⟩
    · exact mem_range_map_lt (powB_lt 31 100000007 (by norm_num)) (s.length + 1)
    · exact mem_range_map_lt
        (fun j => invB_lt 31 100000007 (mminvprime (powB 31 100000007 s.length) 100000007)
          (by norm_num) (mminvprime_lt _ 100000007 (by norm_num)) (s.length - j))
        (s.length + 1)
    · exact mem_range_map_lt (prefH_lt s 31 100000007 (by norm_num)) s.length
    · rw [hvec]
      exact compVal_lt s 100000007 l r (by norm_num)
    · rw [hpair]
      exact compVal_lt s 1000000009 l r (by norm_num)
    · rw [hpair]
      exact compVal_lt s 100000007 l r (by norm_num)

/-- Witness for C6 at the text `abacaba`, prime index 0 and the query `[0, 2]`,
projecting the vector-component bound of the conjunction. -/
theorem c6_witness :
    ((mkHashing abacaba).substringHashVec 0 2).getD 0 0
      < (mkHashing abacaba).hashPrimes.getD 0 0 :=
  (c6_values_in_range abacaba 0 0 2 (by decide) (by decide) (by decide)).2.2.2.1

/-- C7: neither query modifies the engine: in the state-passing form of the two
methods, every field of the post-state engine — `str`, `n`, `base`, `hashPrimes`,
`hashValues`, `powersOfBase`, `inversePowersOfBase` — equals the corresponding field
of the input engine. -/
theorem c7_queries_read_only (h : Hashing) (l r : Nat) :
    ((h.substringHashVecSt l r).1.str = h.str
      ∧ (h.substringHashVecSt l r).1.n = h.n
      ∧ (h.substringHashVecSt l r).1.base = h.base
      ∧ (h.substringHashVecSt l r).1.hashPrimes = h.hashPrimes
      ∧ (h.substringHashVecSt l r).1.hashValues = h.hashValues
      ∧ (h.substringHashVecSt l r).1.powersOfBase = h.powersOfBase
      ∧ (h.substringHashVecSt l r).1.inversePowersOfBase = h.inversePowersOfBase)
    ∧ ((h.substringHashPairSt l r).1.str = h.str
      ∧ (h.substringHashPairSt l r).1.n = h.n
      ∧ (h.substringHashPairSt l r).1.base = h.base
      ∧ (h.substringHashPairSt l r).1.hashPrimes = h.hashPrimes
      ∧ (h.substringHashPairSt l r).1.hashValues = h.hashValues
      ∧ (h.substringHashPairSt l r).1.powersOfBase = h.powersOfBase
      ∧ (h.substringHashPairSt l r).1.inversePowersOfBase = h.inversePowersOfBase) :=
  ⟨⟨rfl, rfl, rfl, rfl, rfl, rfl, rfl⟩, ⟨rfl, rfl, rfl, rfl, rfl, rfl, rfl⟩⟩

/-! Bitwise lemmas for the 64-bit wrap-around arithmetic of the hash functors. -/

lemma shiftRight_xor_distrib (x y n : Nat) : (x ^^^ y) >>> n = (x >>> n) ^^^ (y >>> n) := by
  apply Nat.eq_of_testBit_eq
  intro i
  simp [Nat.testBit_shiftRight, Nat.testBit_xor]

lemma xor_mod_two_pow (x y k : Nat) : x % 2 ^ k ^^^ y % 2 ^ k = (x ^^^ y) % 2 ^ k := by
  apply Nat.eq_of_testBit_eq
  intro i
  simp only [Nat.testBit_xor, Nat.testBit_mod_two_pow]
  by_cases h : i < k <;> simp [h]

lemma shiftLeft_xor_distrib (x y n : Nat) : (x ^^^ y) <<< n = (x <<< n) ^^^ (y <<< n) := by
  apply Nat.eq_of_testBit_eq
  intro i
  simp only [Nat.testBit_xor, Nat.testBit_shiftLeft]
  by_cases h : n ≤ i <;> simp [h]

lemma shiftRight_le_self (u k : Nat) : u >>> k ≤ u := by
  rw [Nat.shiftRight_eq_div_pow]
  exact Nat.div_le_self _ _

lemma shiftRight_high_zero (x k : Nat) (hx : x < 2 ^ 64) (hk : 64 ≤ k) : x >>> k = 0 := by
  rw [Nat.shiftRight_eq_div_pow]
  exact Nat.div_eq_of_lt (lt_of_lt_of_le hx (Nat.pow_le_pow_right (by norm_num) hk))

lemma xor_telescope (x a b c : Nat) :
    (x ^^^ a) ^^^ ((a ^^^ b) ^^^ (b ^^^ c)) = x ^^^ c := by
  apply Nat.eq_of_testBit_eq
  intro i
  simp only [Nat.testBit_xor]
  cases x.testBit i <;> cases a.testBit i <;> cases b.testBit i <;> cases c.testBit i <;> rfl

lemma xor_swap_eq {u v s t : Nat} (h : u ^^^ s = v ^^^ t) : u ^^^ v = t ^^^ s := by
  apply Nat.eq_of_testBit_eq
  intro i
  have hbit := congrArg (fun z => z.testBit i) h
  simp only [Nat.testBit_xor] at hbit ⊢
  revert hbit
  cases u.testBit i <;> cases v.testBit i <;> cases s.testBit i <;> cases t.testBit i <;> decide

/-! Each mixing stage of `splitmix64` is injective on 64-bit words. -/

lemma xorshift_inj (k : Nat) (hk : 64 ≤ 3 * k) {x y : Nat} (hx : x < 2 ^ 64)
    (hy : y < 2 ^ 64) (h : x ^^^ (x >>> k) = y ^^^ (y >>> k)) : x = y := by
  have key : ∀ z : Nat, z < 2 ^ 64 →
      (z ^^^ (z >>> k)) ^^^ (((z ^^^ (z >>> k)) >>> k) ^^^ ((z ^^^ (z >>> k)) >>> (k + k)))
        = z := by
    intro z hz
    have d1 : (z ^^^ (z >>> k)) >>> k = (z >>> k) ^^^ (z >>> (k + k)) := by
      rw [shiftRight_xor_distrib, ← Nat.shiftRight_add]
    have d2 : (z ^^^ (z >>> k)) >>> (k + k)
        = (z >>> (k + k)) ^^^ (z >>> (k + (k + k))) := by
      rw [shiftRight_xor_distrib, ← Nat.shiftRight_add]
    have d3 : z >>> (k + (k + k)) = 0 := shiftRight_high_zero z _ hz (by omega)
    rw [d1, d2, d3, xor_telescope, Nat.xor_zero]
  have hx' := key x hx
  rw [h] at hx'
  exact hx'.symm.trans (key y hy)

lemma add_mod_inj (s x y : Nat) (hx : x < 2 ^ 64) (hy : y < 2 ^ 64)
    (h : (x + s) % 2 ^ 64 = (y + s) % 2 ^ 64) : x = y := by
  have h1 : Nat.ModEq (2 ^ 64) (x + s) (y + s) := h
  have h2 := Nat.ModEq.add_right_cancel' s h1
  unfold Nat.ModEq at h2
  rwa [Nat.mod_eq_of_lt hx, Nat.mod_eq_of_lt hy] at h2

lemma coprime_word_odd (M : Nat) (hodd : M % 2 = 1) : Nat.Coprime (2 ^ 64) M := by
  apply Nat.Coprime.pow_left
  exact (Nat.Prime.coprime_iff_not_dvd Nat.prime_two).mpr (by omega)

lemma mul_odd_mod_inj (M x y : Nat) (hM : M % 2 = 1) (hx : x < 2 ^ 64)
    (hy : y < 2 ^ 64) (h : x * M % 2 ^ 64 = y * M % 2 ^ 64) : x = y := by
  have h1 : Nat.ModEq (2 ^ 64) (x * M) (y * M) := h
  have h2 := Nat.ModEq.cancel_right_of_coprime (coprime_word_odd M hM) h1
  unfold Nat.ModEq at h2
  rwa [Nat.mod_eq_of_lt hx, Nat.mod_eq_of_lt hy] at h2

lemma xor_lt_word {x y : Nat} (hx : x < 2 ^ 64) (hy : y < 2 ^ 64) : x ^^^ y < 2 ^ 64 :=
  Nat.xor_lt_two_pow hx hy

lemma stage_inj (M k : Nat) (hM : M % 2 = 1) (hk : 64 ≤ 3 * k) {u v : Nat}
    (hu : u < 2 ^ 64) (hv : v < 2 ^ 64)
    (h : (u ^^^ (u >>> k)) * M % 2 ^ 64 = (v ^^^ (v >>> k)) * M % 2 ^ 64) : u = v := by
  apply xorshift_inj k hk hu hv
  exact mul_odd_mod_inj M _ _ hM
    (xor_lt_word hu (lt_of_le_of_lt (shiftRight_le_self u k) hu))
    (xor_lt_word hv (lt_of_le_of_lt (shiftRight_le_self v k) hv)) h

lemma splitmix64_lt (x : Nat) : splitmix64 x < wordSize := by
  show _ < 2 ^ 64
  unfold splitmix64 wordSize
  exact xor_lt_word (Nat.mod_lt _ (by norm_num))
    (lt_of_le_of_lt (shiftRight_le_self _ 31) (Nat.mod_lt _ (by norm_num)))

lemma custom_hash_lt (seed x : Nat) : custom_hash seed x < wordSize :=
  splitmix64_lt _

lemma custom_hash_inj (seed : Nat) {x y : Nat} (hx : x < wordSize) (hy : y < wordSize)
    (hne : x ≠ y) : custom_hash seed x ≠ custom_hash seed y := by
  intro h
  apply hne
  have hx' : x < 2 ^ 64 := hx
  have hy' : y < 2 ^ 64 := hy
  simp only [custom_hash, splitmix64, wordSize] at h
  have s4 := xorshift_inj 31 (by norm_num)
    (Nat.mod_lt _ (by norm_num)) (Nat.mod_lt _ (by norm_num)) h
  have s3 := stage_inj 0x94d049bb133111eb 27 (by norm_num) (by norm_num)
    (Nat.mod_lt _ (by norm_num)) (Nat.mod_lt _ (by norm_num)) s4
  have s2 := stage_inj 0xbf58476d1ce4e5b9 30 (by norm_num) (by norm_num)
    (Nat.mod_lt _ (by norm_num)) (Nat.mod_lt _ (by norm_num)) s3
  have s1 := add_mod_inj 0x9e3779b97f4a7c15 _ _
    (Nat.mod_lt _ (by norm_num)) (Nat.mod_lt _ (by norm_num)) s2
  exact add_mod_inj seed x y hx' hy' s1

/-- C10: for any fixed value of the process-lifetime seed, `custom_hash` is injective
on 64-bit inputs: distinct keys never collide within one process run, because
`splitmix64` composed with the seed offset is a bijection on 64-bit words. -/
theorem c10_custom_hash_injective (seed x y : Nat) (hx : x < wordSize) (hy : y < wordSize)
    (hne : x ≠ y) : custom_hash seed x ≠ custom_hash seed y :=
  custom_hash_inj seed hx hy hne

/-- Witness for C10 with seed 0 on the distinct inputs 0 and 1. -/
theorem c10_witness : custom_hash 0 0 ≠ custom_hash 0 1 :=
  c10_custom_hash_injective 0 0 1 (by decide) (by decide) (by decide)

/-- C8: for every fixed seed and distinct 64-bit integers `a` and `b`, the pair
functor is order-sensitive: `pair_hash (a, b) ≠ pair_hash (b, a)`. -/
theorem c8_pair_hash_order_sensitive (seed a b : Nat) (ha : a < wordSize) (hb : b < wordSize)
    (hab : a ≠ b) : pair_hash seed (a, b) ≠ pair_hash seed (b, a) := by
  intro h
  have hA : custom_hash seed a < 2 ^ 64 := custom_hash_lt seed a
  have hB : custom_hash seed b < 2 ^ 64 := custom_hash_lt seed b
  have hne : custom_hash seed a ≠ custom_hash seed b := custom_hash_inj seed ha hb hab
  simp only [pair_hash, wordSize] at h
  have hcross := xor_swap_eq h
  rw [xor_mod_two_pow, ← shiftLeft_xor_distrib, Nat.shiftLeft_eq, pow_one] at hcross
  have hdlt : custom_hash seed a ^^^ custom_hash seed b < 2 ^ 64 := xor_lt_word hA hB
  have hdne : custom_hash seed a ^^^ custom_hash seed b ≠ 0 := fun h0 =>
    hne (Nat.xor_eq_zero.mp h0)
  have hpow : (2 : Nat) ^ 64 = 18446744073709551616 := by norm_num
  rw [hpow] at hcross hdlt
  omega

/-- Witness for C8 with seed 0 on the distinct pair components 0 and 1. -/
theorem c8_witness : pair_hash 0 (0, 1) ≠ pair_hash 0 (1, 0) :=
  c8_pair_hash_order_sensitive 0 0 1 (by decide) (by decide) (by decide)

/-- C9: for any fixed seed, `vector_hash` of the empty vector is 0, and of a
single-element vector `[x]` is `custom_hash x + 0x9e3779b9` in wrap-around 64-bit
arithmetic. -/
theorem c9_vector_hash_base_cases :
    (∀ seed : Nat, vector_hash seed [] = 0)
      ∧ ∀ seed x : Nat, vector_hash seed [x] = (custom_hash seed x + 0x9e3779b9) % wordSize := by
  constructor
  · intro seed
    rfl
  · intro seed x
    show (0 : Nat) ^^^ ((custom_hash seed x + 0x9e3779b9 + (((0 : Nat) <<< 6) % wordSize)
        + ((0 : Nat) >>> 2)) % wordSize) = (custom_hash seed x + 0x9e3779b9) % wordSize
    rw [Nat.zero_shiftLeft, Nat.zero_mod, Nat.zero_shiftRight, Nat.add_zero, Nat.add_zero,
      Nat.zero_xor]
